import Mathlib

/-!
Verification of the CCDI DCC GraphQL schema generators.

The repository has three Python scripts that turn a declarative data model
into GraphQL SDL:

  * `data-model-schema-graphql.py` — the "plain" variant, reading a model
    YAML (nodes + relationships) and a props YAML;
  * `data-model-schema-graphql-mdf.py` — the metadata-driven (MDF) variant,
    walking a `bento_meta` model;
  * `memgraph-schema-graphql.py` — a JSON-driven near-duplicate of the plain
    variant (its pluralization and rel-key dedup logic is textually identical
    to the plain variant's `generate_node_type`).

Python strings are modelled as `List Char` (`Str`), preserving the exact
character-level behaviour of `endswith`, slicing `[:-n]`, `.lower()`,
substring tests, and `"\n".join`.
-/

/-- Python strings are modelled as lists of characters. -/
abbrev Str := List Char

/-- Conversion from a Lean string literal to the character-list model. -/
def chars (s : String) : Str := s.data

/-- Model of Python `w.endswith(suffix)`: the suffix test, expressed through
reversed prefixes so that it computes and rewrites structurally. -/
def endsWithL (w suffix : Str) : Bool := suffix.reverse.isPrefixOf w.reverse

/-- Model of Python `w[:-n]` (drop the last `n` characters). -/
def dropRightL (w : Str) (n : Nat) : Str := (w.reverse.drop n).reverse

/-- Model of Python `w.lower()` (ASCII lowering suffices for this model). -/
def toLowerL (w : Str) : Str := w.map Char.toLower

/-- Model of Python `w.upper()`. -/
def toUpperL (w : Str) : Str := w.map Char.toUpper

/-- Model of Python `"\n".join(lines)`. -/
def joinNL : List Str → Str
  | [] => []
  | [l] => l
  | l :: l' :: ls => l ++ '\n' :: joinNL (l' :: ls)

/-- Model of Python `w.rstrip()`: remove trailing whitespace. -/
def rstripL (w : Str) : Str := (w.reverse.dropWhile Char.isWhitespace).reverse

/-- Relationship direction token, `"OUT"`/`"IN"` in the scripts. -/
inductive Direction
  | OUT
  | IN
deriving DecidableEq, Repr

/-- The string form of a direction, as interpolated by the scripts. -/
def dirStr : Direction → Str
  | Direction.OUT => chars "OUT"
  | Direction.IN => chars "IN"

/-- One directed relationship fact attached to a node, exactly the triples
`(rel_name, target_node, direction)` stored in `relationship_map` by
`build_relationship_map` in `data-model-schema-graphql.py`. For an `OUT`
fact the target is the destination node; for an `IN` fact it is the source
node. -/
structure PlainFact where
  relType : Str
  target : Str
  dir : Direction
deriving DecidableEq, Repr

/-- One `Src`/`Dst` endpoint pair of a relationship definition. -/
structure PlainEnd where
  src : Str
  dst : Str
deriving DecidableEq, Repr

/-- One entry of the model's `Relationships` mapping: the relationship name
and its `Ends` list (`none` models a relationship definition that is empty
or lacks an `Ends` key, which `build_relationship_map` skips). -/
structure PlainRelDef where
  name : Str
  ends : Option (List PlainEnd)
deriving DecidableEq, Repr

/-- Facts contributed by a single endpoint pair of relationship `relName`
to the node `node`: an `OUT` fact when `node` is the source, then an `IN`
fact when `node` is the destination (this is the append order used by
`build_relationship_map`). -/
def endFacts (relName node : Str) (e : PlainEnd) : List PlainFact :=
  (if e.src = node then [⟨relName, e.dst, Direction.OUT⟩] else []) ++
    (if e.dst = node then [⟨relName, e.src, Direction.IN⟩] else [])

/-- Facts contributed by one relationship definition to `node`. -/
def relDefFacts (node : Str) (rd : PlainRelDef) : List PlainFact :=
  match rd.ends with
  | none => []
  | some es => es.flatMap (endFacts rd.name node)

/-- Model of `build_relationship_map(relationships).get(node, [])` from
`data-model-schema-graphql.py`: the list of facts for `node`, in the order
the script appends them while iterating the relationship definitions. -/
def relationshipMapGet (rels : List PlainRelDef) (node : Str) : List PlainFact :=
  rels.flatMap (relDefFacts node)

/-- Model of the Python line `rel_key = f"{rel_type}_{target_node}_{direction}"`
used by `generate_node_type` to deduplicate facts. -/
def relKey (r : PlainFact) : Str :=
  r.relType ++ chars "_" ++ r.target ++ chars "_" ++ dirStr r.dir

/-- The inner pluralization branch of `generate_node_type`
(`data-model-schema-graphql.py` lines 153-159, identical in
`memgraph-schema-graphql.py` lines 105-110): trailing `y` becomes `ies`,
trailing `s` is kept, otherwise `s` is appended. -/
def pluralizeWord (w : Str) : Str :=
  if endsWithL w (chars "y") = true then dropRightL w 1 ++ chars "ies"
  else if endsWithL w (chars "s") = true then w
  else w ++ chars "s"

/-- The candidate-field-name derivation of `generate_node_type`
(lines 150-159): start from the adjacent `target` identifier and pluralize
it unless it already ends in `s` or equals the current node's name. -/
def fieldNameFor (nodeName target : Str) : Str :=
  if endsWithL target (chars "s") = false ∧ target ≠ nodeName then pluralizeWord target
  else target

/-- A compiled relationship field: output field name, adjacent (target)
type, underlying relationship label, and direction — the data interpolated
into one emitted `@relationship` line. -/
structure CompiledField where
  name : Str
  target : Str
  relType : Str
  dir : Direction
deriving DecidableEq, Repr

/-- The dedup key of a compiled field, equal to `relKey` of the fact that
produced it. -/
def fieldKey (f : CompiledField) : Str :=
  f.relType ++ chars "_" ++ f.target ++ chars "_" ++ dirStr f.dir

/-- First pass of `generate_node_type` (lines 139-165): iterate all facts,
keep only `OUT` ones, skip facts whose `rel_key` was seen, record the
derived field name, and emit a field. Note that the pass never compares the
derived field name against previously accepted names. Returns the final
`added_relationships` set, the final `added_field_names` set, and the
emitted fields in order. -/
def outPass (nodeName : Str) : List PlainFact → List Str → List Str →
    List Str × List Str × List CompiledField
  | [], seen, names => (seen, names, [])
  | r :: rs, seen, names =>
    if r.dir = Direction.OUT then
      if relKey r ∈ seen then outPass nodeName rs seen names
      else
        let fname := fieldNameFor nodeName r.target
        let rest := outPass nodeName rs (relKey r :: seen) (fname :: names)
        (rest.1, rest.2.1, ⟨fname, r.target, r.relType, Direction.OUT⟩ :: rest.2.2)
    else outPass nodeName rs seen names

/-- Second pass of `generate_node_type` (lines 167-196): iterate all facts,
keep only `IN` ones, skip facts whose `rel_key` was seen (the key is added
before the name check, exactly as in the script), then drop the fact when
its derived field name is already in `added_field_names`; otherwise record
the name and emit a field. -/
def inPass (nodeName : Str) : List PlainFact → List Str → List Str →
    List Str × List Str × List CompiledField
  | [], seen, names => (seen, names, [])
  | r :: rs, seen, names =>
    if r.dir = Direction.IN then
      if relKey r ∈ seen then inPass nodeName rs seen names
      else
        let fname := fieldNameFor nodeName r.target
        if fname ∈ names then inPass nodeName rs (relKey r :: seen) names
        else
          let rest := inPass nodeName rs (relKey r :: seen) (fname :: names)
          (rest.1, rest.2.1, ⟨fname, r.target, r.relType, Direction.IN⟩ :: rest.2.2)
    else inPass nodeName rs seen names

/-- The relationship-field compiler of `generate_node_type`
(`data-model-schema-graphql.py` lines 134-196): both passes run over the
same fact list and share the `added_relationships` and `added_field_names`
sets; the emitted fields are all first-pass fields followed by all
second-pass fields, in emission order. -/
def compileRelFields (nodeName : Str) (rels : List PlainFact) : List CompiledField :=
  let o := outPass nodeName rels [] []
  let i := inPass nodeName rels o.1 o.2.1
  o.2.2 ++ i.2.2

/-- Model of the Python substring test `p in w`: `p` occurs contiguously
inside `w`. -/
def isSubstring (p w : Str) : Bool := decide (p <:+: w)

/-- The `type_mapping` table of `determine_graphql_type`
(`data-model-schema-graphql.py` lines 44-53). -/
def type_mapping : List (Str × Str) :=
  [(chars "string", chars "String"), (chars "integer", chars "Int"),
   (chars "int", chars "Int"), (chars "float", chars "Float"),
   (chars "number", chars "Float"), (chars "boolean", chars "Boolean"),
   (chars "date", chars "String"), (chars "datetime", chars "String")]

/-- Lookup in an association list of strings, modelling Python
`dict.get(key, default)` composed with `getD`. -/
def lookupAssoc (m : List (Str × Str)) (k : Str) : Option Str :=
  (m.find? (fun kv => decide (kv.1 = k))).map (fun kv => kv.2)

/-- The `numeric_patterns` list of `determine_graphql_type` (lines 57-66),
in source order. -/
def numeric_patterns : List Str :=
  [chars "age_at_", chars "number_of_", chars "_count", chars "_size",
   chars "_length", chars "coverage", chars "avg_read_length",
   chars "number_of_bp", chars "number_of_reads", chars "vaf_numeric",
   chars "test_result_numeric", chars "passage_number",
   chars "magnetic_field_strength", chars "repetition_time",
   chars "echo_time", chars "inversion_time", chars "flip_angle",
   chars "pixel_spacing", chars "slice_thickness", chars "magnification",
   chars "participant_age_", chars "year_of_", chars "pack_years_",
   chars "years_", chars "cigarettes_per_day", chars "alcohol_days_per_week",
   chars "alcohol_drinks_per_day"]

/-- The `boolean_patterns` list of `determine_graphql_type` (line 79). -/
def boolean_patterns : List Str :=
  [chars "indicator", chars "_flag", chars "is_", chars "has_"]

/-- Model of `determine_graphql_type(prop_name, prop_def)`
(`data-model-schema-graphql.py` lines 38-85). `propType` is the property
definition's `Type` entry when the definition exists and the entry is not
`None`; every falsy path of the Python guard collapses to `none` and falls
through to the name heuristics. The Python `for pattern in ...: if pattern
in prop_lower: return ...` loops are modelled by `List.any` with the
substring test `List.isInfixOf`, which returns the same type because every
pattern in a class maps to the same scalar. -/
def determine_graphql_type (propName : Str) (propType : Option Str) : Str :=
  match propType with
  | some t => (lookupAssoc type_mapping (toLowerL t)).getD (chars "String")
  | none =>
    if endsWithL propName (chars "_id") = true ∨ propName = chars "id" then chars "String"
    else
      let propLower := toLowerL propName
      if numeric_patterns.any (fun p => isSubstring p propLower) then chars "Int"
      else if boolean_patterns.any (fun p => isSubstring p propLower) then chars "Boolean"
      else chars "String"

/-- Lookup of a property's `Type` entry: models
`get_property_definition(prop_name, prop_definitions)` followed by the
truthiness/`Type` guard of `determine_graphql_type`; `none` stands for a
missing definition, a definition without `Type`, or a `None` type. -/
def getPropType (propDefs : List (Str × Option Str)) (p : Str) : Option Str :=
  match propDefs.find? (fun kv => decide (kv.1 = p)) with
  | some kv => kv.2
  | none => none

/-- One emitted property line `  {prop_name}: {field_type}` of
`generate_node_type` (line 132). -/
def renderPropLine (propDefs : List (Str × Option Str)) (p : Str) : Str :=
  chars "  " ++ p ++ chars ": " ++ determine_graphql_type p (getPropType propDefs p)

/-- One emitted relationship line of `generate_node_type` (lines 165/196):
`  {field_name}: [{target_node}!]! @relationship(type: "{rel_type}",
direction: {direction})`. -/
def renderRelLine (f : CompiledField) : Str :=
  chars "  " ++ f.name ++ chars ": [" ++ f.target ++
    chars "!]! @relationship(type: \"" ++ f.relType ++
    chars "\", direction: " ++ dirStr f.dir ++ chars ")"

/-- Model of `generate_node_type` (`data-model-schema-graphql.py`
lines 119-201): the header line, one line per property, one line per
compiled relationship field, the closing brace line, and a trailing empty
line, joined with newlines. -/
def generate_node_type (nodeName : Str) (props : List Str)
    (propDefs : List (Str × Option Str)) (nodeRels : List PlainFact) : Str :=
  joinNL ([chars "type " ++ nodeName ++ chars " \x7b"] ++
    props.map (renderPropLine propDefs) ++
    (compileRelFields nodeName nodeRels).map renderRelLine ++
    [chars "\x7d", chars ""])

/-- The fixed boilerplate lines appended by `process_ccdi_model`
(lines 208-218). -/
def plainBoilerplate : List Str :=
  [chars "#graphql", chars "", chars "# Type for field count results",
   chars "type FieldCount \x7b", chars "  field: String!",
   chars "  count: Int!", chars "\x7d", chars ""]

/-- Model of `process_ccdi_model` (lines 204-233): boilerplate lines, then
one `generate_node_type` block per node in the model's own `Nodes` order,
joined with newlines. A node is its name paired with its `Props` list. -/
def process_ccdi_model (nodes : List (Str × List Str))
    (rels : List PlainRelDef) (propDefs : List (Str × Option Str)) : Str :=
  joinNL (plainBoilerplate ++
    nodes.map (fun nd => generate_node_type nd.1 nd.2 propDefs (relationshipMapGet rels nd.1)))

/-- Model of `main`'s `print(graphql_schema)` (line 255): the processed
document plus the newline appended by `print`. -/
def plainOutput (nodes : List (Str × List Str)) (rels : List PlainRelDef)
    (propDefs : List (Str × Option Str)) : Str :=
  process_ccdi_model nodes rels propDefs ++ chars "\n"

/-- The single-fact demo model used by several claims: relationship
`of_sample` with one endpoint pair from `diagnosis` to `sample`. -/
def demoRels : List PlainRelDef :=
  [⟨chars "of_sample", some [⟨chars "diagnosis", chars "sample"⟩]⟩]

/-- Demo model for the duplicate-name behaviour: two relationships with
different labels, each with the single endpoint pair from `a` to `b`. -/
def c1Rels : List PlainRelDef :=
  [⟨chars "r1", some [⟨chars "a", chars "b"⟩]⟩,
   ⟨chars "r2", some [⟨chars "a", chars "b"⟩]⟩]

/-- Demo model giving node `b` one incoming and one outgoing
relationship. -/
def abRels : List PlainRelDef :=
  [⟨chars "r1", some [⟨chars "a", chars "b"⟩]⟩,
   ⟨chars "r2", some [⟨chars "b", chars "c"⟩]⟩]

/-- The attribute-name scalar classifier exactly as the specification
states it (for comparison with `determine_graphql_type`): same `_id`/`id`
class and numeric class, but the boolean fragments `is_` and `has_` only
match in leading position, while `indicator` and `_flag` match anywhere. -/
def claimNameScalar (propName : Str) : Str :=
  if endsWithL propName (chars "_id") = true ∨ propName = chars "id" then chars "String"
  else
    let propLower := toLowerL propName
    if numeric_patterns.any (fun q => isSubstring q propLower) then chars "Int"
    else if isSubstring (chars "indicator") propLower = true ∨
        isSubstring (chars "_flag") propLower = true ∨
        (chars "is_").isPrefixOf propLower = true ∨
        (chars "has_").isPrefixOf propLower = true then chars "Boolean"
    else chars "String"

/-! The metadata-driven variant, `data-model-schema-graphql-mdf.py`. The
`bento_meta` model is modelled by its parts the script reads: a model
handle, nodes (handle plus properties), and edges (handle plus source and
destination node handles). -/

/-- One MDF property: its `value_domain` and, for list domains, its
`item_domain` (`none` models a `None` attribute). -/
structure MdfProp where
  value_domain : Option Str
  item_domain : Option Str
deriving DecidableEq, Repr

/-- One MDF node: its handle and its properties (`node.props.items()`,
a dict keyed by property handle, so the names are unique in real input). -/
structure MdfNode where
  handle : Str
  props : List (Str × MdfProp)
deriving DecidableEq, Repr

/-- One MDF edge: its handle, and the handles of its source and destination
nodes (`edge.src.handle`, `edge.dst.handle`). -/
structure MdfEdge where
  handle : Str
  src : Str
  dst : Str
deriving DecidableEq, Repr

/-- The MDF model as read by the script: handle, `model.nodes.values()`,
and `model.edges.values()` in iteration order. -/
structure MdfModel where
  handle : Str
  nodes : List MdfNode
  edges : List MdfEdge
deriving DecidableEq, Repr

/-- The `scalar_map` table of `map_value_domain_to_graphql`
(`data-model-schema-graphql-mdf.py` lines 89-100). -/
def scalar_map : List (Str × Str) :=
  [(chars "string", chars "String"), (chars "regexp", chars "String"),
   (chars "value_set", chars "String"), (chars "integer", chars "Int"),
   (chars "int", chars "Int"), (chars "float", chars "Float"),
   (chars "number", chars "Float"), (chars "double", chars "Float"),
   (chars "boolean", chars "Boolean"), (chars "bool", chars "Boolean")]

/-- Model of `map_value_domain_to_graphql` (lines 78-107): lower the value
domain (treating `None` as the empty string), wrap list domains around the
item domain's scalar, and default everything unrecognized to `String`. -/
def map_value_domain_to_graphql (p : MdfProp) : Str :=
  let domain := toLowerL (p.value_domain.getD [])
  let item := toLowerL (p.item_domain.getD [])
  if domain = chars "list" then
    let elem := if item ≠ [] then (lookupAssoc scalar_map item).getD (chars "String")
                else chars "String"
    chars "[" ++ elem ++ chars "]"
  else (lookupAssoc scalar_map domain).getD (chars "String")

/-- Model of `singularize` (lines 110-118): trailing `ies` becomes `y`,
trailing `ses` drops one `s`, a trailing `s` not preceded by another `s` is
dropped, anything else is unchanged. -/
def singularize (name : Str) : Str :=
  if endsWithL name (chars "ies") = true then dropRightL name 3 ++ chars "y"
  else if endsWithL name (chars "ses") = true then dropRightL name 2
  else if endsWithL name (chars "s") = true ∧ endsWithL name (chars "ss") = false then
    dropRightL name 1
  else name

/-- Decimal rendering of a natural number, for the `_2`, `_3`, …
occurrence suffixes of `build_relationship_fields`. -/
def natToStr (n : Nat) : Str := (Nat.repr n).data

/-- Model of the occurrence-counter bookkeeping of
`build_relationship_fields` (lines 135-137/145-147): look up the count of
`base`, increment it, and return the field name — `base` for the first
occurrence, `base_k` (1-based `k`) afterwards. -/
def bump (used : Str → Nat) (base : Str) : (Str → Nat) × Str :=
  let idx := used base
  (fun k => if k = base then idx + 1 else used k,
   if idx = 0 then base else base ++ chars "_" ++ natToStr (idx + 1))

/-- The OUT loop of `build_relationship_fields` (lines 131-138): for each
edge whose source is the node, the base name is
`singularize(dst).lower() + "_" + edge.handle.lower()`, disambiguated by
the shared occurrence counter; the recorded triple is
`(field_name, dst_handle, "OUT")`. -/
def outPassMdf (nodeHandle : Str) : List MdfEdge → (Str → Nat) →
    (Str → Nat) × List (Str × Str × Str)
  | [], used => (used, [])
  | e :: es, used =>
    if e.src = nodeHandle then
      let base := toLowerL (singularize e.dst) ++ chars "_" ++ toLowerL e.handle
      let b := bump used base
      let rest := outPassMdf nodeHandle es b.1
      (rest.1, (b.2, e.dst, chars "OUT") :: rest.2)
    else outPassMdf nodeHandle es used

/-- The IN loop of `build_relationship_fields` (lines 141-148): for each
edge whose destination is the node, the base name is
`singularize(node.handle).lower() + "_" + edge.handle.lower()`; the
recorded triple is `(field_name, src_handle, "IN")`. -/
def inPassMdf (nodeHandle : Str) : List MdfEdge → (Str → Nat) →
    (Str → Nat) × List (Str × Str × Str)
  | [], used => (used, [])
  | e :: es, used =>
    if e.dst = nodeHandle then
      let base := toLowerL (singularize nodeHandle) ++ chars "_" ++ toLowerL e.handle
      let b := bump used base
      let rest := inPassMdf nodeHandle es b.1
      (rest.1, (b.2, e.src, chars "IN") :: rest.2)
    else inPassMdf nodeHandle es used

/-- Lexicographic comparison of character lists by code point, the order
Python uses to compare strings. -/
def strLe : Str → Str → Bool
  | [], _ => true
  | _ :: _, [] => false
  | a :: as, b :: bs => if a < b then true else if a = b then strLe as bs else false

/-- The sort key order of `rels.sort(key=lambda r: (0 if r[2] == "OUT" else
1, r[0]))` (line 151): direction rank first, field name second. -/
def relFieldLe (a b : Str × Str × Str) : Prop :=
  (if a.2.2 = chars "OUT" then (0 : Nat) else 1) < (if b.2.2 = chars "OUT" then (0 : Nat) else 1) ∨
    ((if a.2.2 = chars "OUT" then (0 : Nat) else 1) = (if b.2.2 = chars "OUT" then (0 : Nat) else 1) ∧
      strLe a.1 b.1 = true)

instance : DecidableRel relFieldLe := fun a b => by unfold relFieldLe; infer_instance

/-- Model of `build_relationship_fields` (lines 121-152): both loops share
the `used` counter; the collected triples are then stably sorted by
(direction rank, field name). -/
def build_relationship_fields (m : MdfModel) (node : MdfNode) : List (Str × Str × Str) :=
  let o := outPassMdf node.handle m.edges (fun _ => 0)
  let i := inPassMdf node.handle m.edges o.1
  List.insertionSort relFieldLe (o.2 ++ i.2)

/-- Model of Python `field_name.split("_")`: split at every underscore,
keeping empty segments. -/
def splitUnderscore (w : Str) : List Str :=
  match w with
  | [] => [[]]
  | c :: cs =>
    let r := splitUnderscore cs
    if c = '_' then [] :: r
    else
      match r with
      | [] => [[c]]
      | h :: t => (c :: h) :: t

/-- Model of `_relationship_type_name` (lines 177-192): take the segment
after the last underscore of the field name, return the uppercased handle
of the first edge whose lowercased handle equals that segment, and fall
back to the uppercased segment itself. -/
def relationship_type_name (m : MdfModel) (field_name : Str) : Str :=
  let parts := splitUnderscore field_name
  let guess := parts.getLastD []
  match m.edges.find? (fun e => decide (toLowerL e.handle = guess)) with
  | some e => toUpperL e.handle
  | none => toUpperL guess

/-- The property order on (name, property) pairs used by
`sorted(node.props.items())`: compare by property name (the dict keys are
unique, so the second components are never compared). -/
def propLe (a b : Str × MdfProp) : Prop := strLe a.1 b.1 = true

instance : DecidableRel propLe := fun a b => by unfold propLe; infer_instance

/-- Model of `sorted(node.props.items())` in `generate_type_sdl`
(line 161). -/
def sortedProps (ps : List (Str × MdfProp)) : List (Str × MdfProp) :=
  List.insertionSort propLe ps

/-- Model of the `safe_name` sanitization of `generate_type_sdl`
(line 164): every character that is not alphanumeric or an underscore is
replaced with an underscore. -/
def safe_name (pname : Str) : Str :=
  pname.map (fun ch => if ch.isAlphanum ∨ ch = '_' then ch else '_')

/-- Model of `generate_type_sdl` (lines 155-174): header, one line per
property in sorted order, one line per relationship field, closing brace,
joined with newlines. -/
def generate_type_sdl (m : MdfModel) (node : MdfNode) : Str :=
  joinNL ([chars "type " ++ node.handle ++ chars " \x7b"] ++
    (sortedProps node.props).map (fun pp =>
      chars "  " ++ safe_name pp.1 ++ chars ": " ++ map_value_domain_to_graphql pp.2) ++
    (build_relationship_fields m node).map (fun fld =>
      chars "  " ++ fld.1 ++ chars ": [" ++ fld.2.1 ++
        chars "!]! @relationship(type: \"" ++ relationship_type_name m fld.1 ++
        chars "\", direction: " ++ fld.2.2 ++ chars ")") ++
    [chars "\x7d"])

/-- The node order on MDF nodes used by `sorted(model.nodes.values(),
key=lambda n: n.handle)` (line 209). -/
def nodeLe (a b : MdfNode) : Prop := strLe a.handle b.handle = true

instance : DecidableRel nodeLe := fun a b => by unfold nodeLe; infer_instance

/-- Model of `sorted(model.nodes.values(), key=lambda n: n.handle)`. -/
def sortedNodes (m : MdfModel) : List MdfNode :=
  List.insertionSort nodeLe m.nodes

/-- Model of `generate_schema` (lines 195-212): boilerplate lines, then
per node (in handle order) the node's SDL block and an empty line; the
joined text is right-stripped and exactly one newline is appended. -/
def generate_schema (m : MdfModel) : Str :=
  let out := [chars "#graphql", chars "",
    chars "# Auto-generated from MDF using bento_mdf",
    chars "# Model Handle: " ++ m.handle, chars "",
    chars "type FieldCount \x7b", chars "  field: String!",
    chars "  count: Int!", chars "\x7d", chars ""] ++
    (sortedNodes m).flatMap (fun n => [generate_type_sdl m n, chars ""])
  rstripL (joinNL out) ++ chars "\n"

/-! Unfolding equations and invariants of the two passes of
`generate_node_type`. -/

theorem outPass_cons_skip_dir (nn : Str) (r : PlainFact) (rs : List PlainFact)
    (seen names : List Str) (h : ¬ r.dir = Direction.OUT) :
    outPass nn (r :: rs) seen names = outPass nn rs seen names := by
  simp [outPass, h]

theorem outPass_cons_skip_key (nn : Str) (r : PlainFact) (rs : List PlainFact)
    (seen names : List Str) (h : r.dir = Direction.OUT) (h2 : relKey r ∈ seen) :
    outPass nn (r :: rs) seen names = outPass nn rs seen names := by
  simp [outPass, h, h2]

theorem outPass_cons_accept (nn : Str) (r : PlainFact) (rs : List PlainFact)
    (seen names : List Str) (h : r.dir = Direction.OUT) (h2 : relKey r ∉ seen) :
    outPass nn (r :: rs) seen names =
      ((outPass nn rs (relKey r :: seen) (fieldNameFor nn r.target :: names)).1,
       (outPass nn rs (relKey r :: seen) (fieldNameFor nn r.target :: names)).2.1,
       ⟨fieldNameFor nn r.target, r.target, r.relType, Direction.OUT⟩ ::
         (outPass nn rs (relKey r :: seen) (fieldNameFor nn r.target :: names)).2.2) := by
  simp [outPass, h, h2]

theorem inPass_cons_skip_dir (nn : Str) (r : PlainFact) (rs : List PlainFact)
    (seen names : List Str) (h : ¬ r.dir = Direction.IN) :
    inPass nn (r :: rs) seen names = inPass nn rs seen names := by
  simp [inPass, h]

theorem inPass_cons_skip_key (nn : Str) (r : PlainFact) (rs : List PlainFact)
    (seen names : List Str) (h : r.dir = Direction.IN) (h2 : relKey r ∈ seen) :
    inPass nn (r :: rs) seen names = inPass nn rs seen names := by
  simp [inPass, h, h2]

theorem inPass_cons_skip_name (nn : Str) (r : PlainFact) (rs : List PlainFact)
    (seen names : List Str) (h : r.dir = Direction.IN) (h2 : relKey r ∉ seen)
    (h3 : fieldNameFor nn r.target ∈ names) :
    inPass nn (r :: rs) seen names = inPass nn rs (relKey r :: seen) names := by
  simp [inPass, h, h2, h3]

theorem inPass_cons_accept (nn : Str) (r : PlainFact) (rs : List PlainFact)
    (seen names : List Str) (h : r.dir = Direction.IN) (h2 : relKey r ∉ seen)
    (h3 : fieldNameFor nn r.target ∉ names) :
    inPass nn (r :: rs) seen names =
      ((inPass nn rs (relKey r :: seen) (fieldNameFor nn r.target :: names)).1,
       (inPass nn rs (relKey r :: seen) (fieldNameFor nn r.target :: names)).2.1,
       ⟨fieldNameFor nn r.target, r.target, r.relType, Direction.IN⟩ ::
         (inPass nn rs (relKey r :: seen) (fieldNameFor nn r.target :: names)).2.2) := by
  simp [inPass, h, h2, h3]

/-- The compiled field produced by accepting an `OUT` fact has the fact's
`rel_key` as its dedup key. -/
theorem fieldKey_mk_out (nn : Str) (r : PlainFact) (h : r.dir = Direction.OUT) :
    fieldKey ⟨fieldNameFor nn r.target, r.target, r.relType, Direction.OUT⟩ = relKey r := by
  simp [fieldKey, relKey, h]

/-- The compiled field produced by accepting an `IN` fact has the fact's
`rel_key` as its dedup key. -/
theorem fieldKey_mk_in (nn : Str) (r : PlainFact) (h : r.dir = Direction.IN) :
    fieldKey ⟨fieldNameFor nn r.target, r.target, r.relType, Direction.IN⟩ = relKey r := by
  simp [fieldKey, relKey, h]

/-- Invariants of the first (OUT) pass: every emitted field has direction
`OUT`, carries the derived field name of its own target, has a dedup key
that was not initially seen, and originates from an `OUT` fact of the input
list; the initial seen set survives into the final one; the emitted dedup
keys are distinct; every emitted key ends up in the final seen set; and the
final name set is exactly the emitted names plus the initial ones. -/
theorem outPass_spec (nn : Str) : ∀ (rs : List PlainFact) (seen names : List Str),
    (∀ f ∈ (outPass nn rs seen names).2.2,
        f.dir = Direction.OUT ∧ f.name = fieldNameFor nn f.target ∧
        fieldKey f ∉ seen ∧ (∃ r ∈ rs, r.dir = Direction.OUT ∧
          f = ⟨fieldNameFor nn r.target, r.target, r.relType, Direction.OUT⟩)) ∧
    (∀ x ∈ seen, x ∈ (outPass nn rs seen names).1) ∧
    ((outPass nn rs seen names).2.2.map fieldKey).Nodup ∧
    (∀ f ∈ (outPass nn rs seen names).2.2, fieldKey f ∈ (outPass nn rs seen names).1) ∧
    (∀ x, x ∈ (outPass nn rs seen names).2.1 ↔
        x ∈ (outPass nn rs seen names).2.2.map CompiledField.name ∨ x ∈ names) := by
  intro rs
  induction rs with
  | nil =>
    intro seen names
    refine ⟨by simp [outPass], by simp [outPass], by simp [outPass], by simp [outPass], ?_⟩
    intro x; simp [outPass]
  | cons r rs ih =>
    intro seen names
    by_cases hdir : r.dir = Direction.OUT
    · by_cases hseen : relKey r ∈ seen
      · rw [outPass_cons_skip_key nn r rs seen names hdir hseen]
        obtain ⟨h1, h2, h3, h4, h5⟩ := ih seen names
        refine ⟨?_, h2, h3, h4, h5⟩
        intro f hf
        obtain ⟨hd, hn, hk, rr, hrr, hrest⟩ := h1 f hf
        exact ⟨hd, hn, hk, rr, List.mem_cons_of_mem _ hrr, hrest⟩
      · rw [outPass_cons_accept nn r rs seen names hdir hseen]
        obtain ⟨h1, h2, h3, h4, h5⟩ := ih (relKey r :: seen) (fieldNameFor nn r.target :: names)
        have hkey := fieldKey_mk_out nn r hdir
        refine ⟨?_, ?_, ?_, ?_, ?_⟩
        · intro f hf
          rcases List.mem_cons.mp hf with hfe | hfm
          · subst hfe
            exact ⟨rfl, rfl, by rw [hkey]; exact hseen,
              r, List.mem_cons_self _ _, hdir, rfl⟩
          · obtain ⟨hd, hn, hk, rr, hrr, hrest⟩ := h1 f hfm
            exact ⟨hd, hn, fun hc => hk (List.mem_cons_of_mem _ hc),
              rr, List.mem_cons_of_mem _ hrr, hrest⟩
        · intro x hx
          exact h2 x (List.mem_cons_of_mem _ hx)
        · simp only [List.map_cons, List.nodup_cons]
          refine ⟨?_, h3⟩
          intro hc
          obtain ⟨f, hf, hfk⟩ := List.mem_map.mp hc
          obtain ⟨_, _, hk, _⟩ := h1 f hf
          rw [hkey] at hfk
          exact hk (hfk ▸ List.mem_cons_self _ _)
        · intro f hf
          rcases List.mem_cons.mp hf with hfe | hfm
          · subst hfe
            rw [hkey]
            exact h2 _ (List.mem_cons_self _ _)
          · exact h4 f hfm
        · intro x
          rw [h5 x]
          simp only [List.map_cons, List.mem_cons]
          tauto
    · rw [outPass_cons_skip_dir nn r rs seen names hdir]
      obtain ⟨h1, h2, h3, h4, h5⟩ := ih seen names
      refine ⟨?_, h2, h3, h4, h5⟩
      intro f hf
      obtain ⟨hd, hn, hk, rr, hrr, hrest⟩ := h1 f hf
      exact ⟨hd, hn, hk, rr, List.mem_cons_of_mem _ hrr, hrest⟩

/-- Invariants of the second (IN) pass: every emitted field has direction
`IN`, a name that is not in the initial name set, a dedup key that was not
initially seen, and originates from an `IN` fact of the input list; the
emitted dedup keys are distinct; and the emitted names are distinct. -/
theorem inPass_spec (nn : Str) : ∀ (rs : List PlainFact) (seen names : List Str),
    (∀ f ∈ (inPass nn rs seen names).2.2,
        f.dir = Direction.IN ∧ f.name ∉ names ∧ fieldKey f ∉ seen ∧
        (∃ r ∈ rs, r.dir = Direction.IN ∧
          f = ⟨fieldNameFor nn r.target, r.target, r.relType, Direction.IN⟩)) ∧
    ((inPass nn rs seen names).2.2.map fieldKey).Nodup ∧
    ((inPass nn rs seen names).2.2.map CompiledField.name).Nodup := by
  intro rs
  induction rs with
  | nil =>
    intro seen names
    exact ⟨by simp [inPass], by simp [inPass], by simp [inPass]⟩
  | cons r rs ih =>
    intro seen names
    by_cases hdir : r.dir = Direction.IN
    · by_cases hseen : relKey r ∈ seen
      · rw [inPass_cons_skip_key nn r rs seen names hdir hseen]
        obtain ⟨h1, h2, h3⟩ := ih seen names
        refine ⟨?_, h2, h3⟩
        intro f hf
        obtain ⟨hd, hn, hk, rr, hrr, hrest⟩ := h1 f hf
        exact ⟨hd, hn, hk, rr, List.mem_cons_of_mem _ hrr, hrest⟩
      · by_cases hname : fieldNameFor nn r.target ∈ names
        · rw [inPass_cons_skip_name nn r rs seen names hdir hseen hname]
          obtain ⟨h1, h2, h3⟩ := ih (relKey r :: seen) names
          refine ⟨?_, h2, h3⟩
          intro f hf
          obtain ⟨hd, hn, hk, rr, hrr, hrest⟩ := h1 f hf
          exact ⟨hd, hn, fun hc => hk (List.mem_cons_of_mem _ hc),
            rr, List.mem_cons_of_mem _ hrr, hrest⟩
        · rw [inPass_cons_accept nn r rs seen names hdir hseen hname]
          obtain ⟨h1, h2, h3⟩ := ih (relKey r :: seen) (fieldNameFor nn r.target :: names)
          have hkey := fieldKey_mk_in nn r hdir
          refine ⟨?_, ?_, ?_⟩
          · intro f hf
            rcases List.mem_cons.mp hf with hfe | hfm
            · subst hfe
              exact ⟨rfl, hname, by rw [hkey]; exact hseen,
                r, List.mem_cons_self _ _, hdir, rfl⟩
            · obtain ⟨hd, hn, hk, rr, hrr, hrest⟩ := h1 f hfm
              exact ⟨hd, fun hc => hn (List.mem_cons_of_mem _ hc),
                fun hc => hk (List.mem_cons_of_mem _ hc),
                rr, List.mem_cons_of_mem _ hrr, hrest⟩
          · simp only [List.map_cons, List.nodup_cons]
            refine ⟨?_, h2⟩
            intro hc
            obtain ⟨f, hf, hfk⟩ := List.mem_map.mp hc
            obtain ⟨_, _, hk, _⟩ := h1 f hf
            rw [hkey] at hfk
            exact hk (hfk ▸ List.mem_cons_self _ _)
          · simp only [List.map_cons, List.nodup_cons]
            refine ⟨?_, h3⟩
            intro hc
            obtain ⟨f, hf, hfn⟩ := List.mem_map.mp hc
            obtain ⟨_, hn, _⟩ := h1 f hf
            exact hn (hfn ▸ List.mem_cons_self _ _)
    · rw [inPass_cons_skip_dir nn r rs seen names hdir]
      obtain ⟨h1, h2, h3⟩ := ih seen names
      refine ⟨?_, h2, h3⟩
      intro f hf
      obtain ⟨hd, hn, hk, rr, hrr, hrest⟩ := h1 f hf
      exact ⟨hd, hn, hk, rr, List.mem_cons_of_mem _ hrr, hrest⟩

/-- Every first-pass field of `compileRelFields` has direction `OUT`, and
every second-pass field has direction `IN`; filtering by direction
reproduces the two passes in order. -/
theorem compile_dir_split (nn : Str) (rels : List PlainFact) :
    (compileRelFields nn rels).filter (fun f => decide (f.dir = Direction.OUT)) ++
      (compileRelFields nn rels).filter (fun f => decide (f.dir = Direction.IN)) =
      compileRelFields nn rels := by
  have houts := (outPass_spec nn rels [] []).1
  have hins := (inPass_spec nn rels (outPass nn rels [] []).1 (outPass nn rels [] []).2.1).1
  have hc : compileRelFields nn rels =
      (outPass nn rels [] []).2.2 ++
        (inPass nn rels (outPass nn rels [] []).1 (outPass nn rels [] []).2.1).2.2 := rfl
  rw [hc, List.filter_append, List.filter_append]
  rw [List.filter_eq_self.mpr (fun f hf => by simp [(houts f hf).1]),
    List.filter_eq_nil_iff.mpr (fun f hf => by simp [(hins f hf).1]),
    List.filter_eq_nil_iff.mpr (fun f hf => by simp [(houts f hf).1]),
    List.filter_eq_self.mpr (fun f hf => by simp [(hins f hf).1])]
  simp [compileRelFields]

/-- An accepted `IN` field never shares its name with an accepted `OUT`
field: the second pass checks candidate names against the full name set
left by the first pass. -/
theorem compile_out_wins (nn : Str) (rels : List PlainFact) :
    ∀ f ∈ compileRelFields nn rels, f.dir = Direction.IN →
      ∀ g ∈ compileRelFields nn rels, g.dir = Direction.OUT → f.name ≠ g.name := by
  intro f hf hfdir g hg hgdir
  have houts := outPass_spec nn rels [] []
  have hins := inPass_spec nn rels (outPass nn rels [] []).1 (outPass nn rels [] []).2.1
  rcases List.mem_append.mp hf with hfo | hfi
  · have := (houts.1 f hfo).1
    rw [this] at hfdir
    exact absurd hfdir (by simp)
  · rcases List.mem_append.mp hg with hgo | hgi
    · have hnmem : f.name ∉ (outPass nn rels [] []).2.1 := (hins.1 f hfi).2.1
      have hgmem : g.name ∈ (outPass nn rels [] []).2.1 :=
        (houts.2.2.2.2 g.name).mpr (Or.inl (List.mem_map_of_mem _ hgo))
      exact fun he => hnmem (he ▸ hgmem)
    · have := (hins.1 g hgi).1
      rw [this] at hgdir
      exact absurd hgdir (by simp)

/-- The dedup keys of all compiled fields of one node are pairwise
distinct. -/
theorem compile_keys_nodup (nn : Str) (rels : List PlainFact) :
    ((compileRelFields nn rels).map fieldKey).Nodup := by
  have houts := outPass_spec nn rels [] []
  have hins := inPass_spec nn rels (outPass nn rels [] []).1 (outPass nn rels [] []).2.1
  have hc : compileRelFields nn rels =
      (outPass nn rels [] []).2.2 ++
        (inPass nn rels (outPass nn rels [] []).1 (outPass nn rels [] []).2.1).2.2 := rfl
  rw [hc, List.map_append, List.nodup_append]
  refine ⟨houts.2.2.1, hins.2.1, ?_⟩
  intro a ha hb
  obtain ⟨g, hg, hgk⟩ := List.mem_map.mp ha
  obtain ⟨f, hfmem, hfk⟩ := List.mem_map.mp hb
  have h1 : a ∈ (outPass nn rels [] []).1 := hgk ▸ houts.2.2.2.1 g hg
  have h2 : fieldKey f ∉ (outPass nn rels [] []).1 := (hins.1 f hfmem).2.2.1
  exact h2 (hfk ▸ h1)

/-- A list of compiled fields with pairwise-distinct dedup keys contains at
most one field satisfying any predicate that pins the key down. -/
theorem filter_length_le_one_of_key (p : CompiledField → Bool) (k : Str) :
    ∀ l : List CompiledField, (l.map fieldKey).Nodup →
      (∀ f, p f = true → fieldKey f = k) → (l.filter p).length ≤ 1 := by
  intro l
  induction l with
  | nil => intro _ _; simp
  | cons f l ih =>
    intro hnd hp
    simp only [List.map_cons, List.nodup_cons] at hnd
    by_cases hpf : p f = true
    · rw [List.filter_cons_of_pos hpf]
      have hnil : l.filter p = [] := by
        refine List.filter_eq_nil_iff.mpr ?_
        intro g hg hpg
        have : fieldKey g = fieldKey f := by rw [hp g hpg, hp f hpf]
        exact hnd.1 (this ▸ List.mem_map_of_mem _ hg)
      rw [hnil]
      simp
    · rw [List.filter_cons_of_neg hpf]
      exact ih hnd.2 hp

/-- Every `IN` fact of `relationshipMapGet` comes from an endpoint pair
whose destination is the node; the fact's label is the relationship's name
and its target is the pair's source. -/
theorem relationshipMapGet_in_fact (rds : List PlainRelDef) (node : Str) (r : PlainFact)
    (hr : r ∈ relationshipMapGet rds node) (hdir : r.dir = Direction.IN) :
    ∃ rd ∈ rds, ∃ es, rd.ends = some es ∧ ∃ e ∈ es, e.dst = node ∧
      r.relType = rd.name ∧ r.target = e.src := by
  obtain ⟨rd, hrd, hmem⟩ := List.mem_flatMap.mp hr
  refine ⟨rd, hrd, ?_⟩
  unfold relDefFacts at hmem
  cases hends : rd.ends with
  | none => rw [hends] at hmem; simp at hmem
  | some es =>
    rw [hends] at hmem
    refine ⟨es, rfl, ?_⟩
    obtain ⟨e, he, hine⟩ := List.mem_flatMap.mp hmem
    refine ⟨e, he, ?_⟩
    unfold endFacts at hine
    rcases List.mem_append.mp hine with h | h
    · by_cases hsrc : e.src = node
      · simp only [if_pos hsrc, List.mem_singleton] at h
        subst h
        simp at hdir
      · simp [if_neg hsrc] at h
    · by_cases hdst : e.dst = node
      · simp only [if_pos hdst, List.mem_singleton] at h
        subst h
        exact ⟨hdst, rfl, rfl⟩
      · simp [if_neg hdst] at h

/-! Order-theoretic facts about `strLe`, needed for the sorting claims. -/

theorem strLe_total : ∀ a b : Str, strLe a b = true ∨ strLe b a = true := by
  intro a
  induction a with
  | nil => intro b; left; rfl
  | cons x xs ih =>
    intro b
    cases b with
    | nil => right; rfl
    | cons y ys =>
      rcases lt_trichotomy x y with h | h | h
      · left; simp [strLe, h]
      · subst h
        rcases ih ys with h' | h'
        · left; simp [strLe, h']
        · right; simp [strLe, h']
      · right; simp [strLe, h]

theorem strLe_trans : ∀ a b c : Str, strLe a b = true → strLe b c = true → strLe a c = true := by
  intro a
  induction a with
  | nil => intro b c _ _; rfl
  | cons x xs ih =>
    intro b c hab hbc
    cases b with
    | nil => simp [strLe] at hab
    | cons y ys =>
      cases c with
      | nil => simp [strLe] at hbc
      | cons z zs =>
        rcases lt_trichotomy x y with hxy | hxy | hxy
        · rcases lt_trichotomy y z with hyz | hyz | hyz
          · simp [strLe, lt_trans hxy hyz]
          · subst hyz; simp [strLe, hxy]
          · simp only [strLe, if_neg (asymm hyz), if_neg (ne_of_gt hyz)] at hbc
            exact absurd hbc Bool.false_ne_true
        · subst hxy
          rcases lt_trichotomy x z with hyz | hyz | hyz
          · simp [strLe, hyz]
          · subst hyz
            simp only [strLe, lt_irrefl, if_false, if_pos rfl] at hab hbc ⊢
            exact ih _ _ hab hbc
          · simp only [strLe, if_neg (asymm hyz), if_neg (ne_of_gt hyz)] at hbc
            exact absurd hbc Bool.false_ne_true
        · simp only [strLe, if_neg (asymm hxy), if_neg (ne_of_gt hxy)] at hab
          exact absurd hab Bool.false_ne_true

theorem strLe_antisymm : ∀ a b : Str, strLe a b = true → strLe b a = true → a = b := by
  intro a
  induction a with
  | nil =>
    intro b _ hba
    cases b with
    | nil => rfl
    | cons y ys => simp [strLe] at hba
  | cons x xs ih =>
    intro b hab hba
    cases b with
    | nil => simp [strLe] at hab
    | cons y ys =>
      rcases lt_trichotomy x y with h | h | h
      · simp only [strLe, if_neg (asymm h), if_neg (ne_of_gt h)] at hba
        exact absurd hba Bool.false_ne_true
      · subst h
        simp only [strLe, lt_irrefl, if_false, if_pos rfl] at hab hba
        exact congrArg (x :: ·) (ih _ hab hba)
      · simp only [strLe, if_neg (asymm h), if_neg (ne_of_gt h)] at hab
        exact absurd hab Bool.false_ne_true

instance : IsTotal (Str × MdfProp) propLe := ⟨fun a b => strLe_total a.1 b.1⟩

instance : IsTrans (Str × MdfProp) propLe :=
  ⟨fun a b c hab hbc => strLe_trans a.1 b.1 c.1 hab hbc⟩

instance : IsTotal MdfNode nodeLe := ⟨fun a b => strLe_total a.handle b.handle⟩

instance : IsTrans MdfNode nodeLe :=
  ⟨fun a b c hab hbc => strLe_trans a.handle b.handle c.handle hab hbc⟩

/-- Strict version of `propLe`, antisymmetric because `strLe` is. -/
def propLt (a b : Str × MdfProp) : Prop := propLe a b ∧ a.1 ≠ b.1

instance : IsAntisymm (Str × MdfProp) propLt :=
  ⟨fun a b h h' => absurd (strLe_antisymm a.1 b.1 h.1 h'.1) h.2⟩

/-! Small facts about the string-model helpers. -/

theorem isPrefixOf_append_left {α : Type} [DecidableEq α] :
    ∀ l m t : List α, l.isPrefixOf m = true → l.isPrefixOf (m ++ t) = true := by
  intro l
  induction l with
  | nil => intro m t _; simp [List.isPrefixOf]
  | cons x xs ih =>
    intro m t h
    cases m with
    | nil => simp [List.isPrefixOf] at h
    | cons y ys =>
      simp only [List.cons_append, List.isPrefixOf, Bool.and_eq_true, beq_iff_eq] at h ⊢
      exact ⟨h.1, ih ys t h.2⟩

theorem isPrefixOf_self {α : Type} [DecidableEq α] :
    ∀ l : List α, l.isPrefixOf l = true := by
  intro l
  induction l with
  | nil => rfl
  | cons x xs ih => simp [List.isPrefixOf, ih]

/-- Appending on the left preserves an `endsWithL` suffix. -/
theorem endsWithL_append_left (u v s : Str) (h : endsWithL v s = true) :
    endsWithL (u ++ v) s = true := by
  unfold endsWithL at h ⊢
  rw [List.reverse_append]
  exact isPrefixOf_append_left _ _ _ h

/-- Every list ends with itself appended on the right. -/
theorem endsWithL_append_self (u s : Str) : endsWithL (u ++ s) s = true := by
  unfold endsWithL
  rw [List.reverse_append]
  exact isPrefixOf_append_left _ _ _ (isPrefixOf_self _)

/-- The head of `dropWhile p` does not satisfy `p`. -/
theorem dropWhile_head_false {α : Type} (p : α → Bool) :
    ∀ (l : List α) (c : α) (cs : List α), l.dropWhile p = c :: cs → p c = false := by
  intro l
  induction l with
  | nil => intro c cs h; simp [List.dropWhile] at h
  | cons x xs ih =>
    intro c cs h
    by_cases hx : p x = true
    · rw [List.dropWhile_cons_of_pos hx] at h
      exact ih c cs h
    · rw [List.dropWhile_cons_of_neg hx] at h
      cases h
      simpa using hx

/-- Unfolding `joinNL` over an appended final line. -/
theorem joinNL_append_single : ∀ (xs : List Str) (l : Str), xs ≠ [] →
    joinNL (xs ++ [l]) = joinNL xs ++ '\n' :: l := by
  intro xs
  induction xs with
  | nil => intro l h; exact absurd rfl h
  | cons x xs ih =>
    intro l _
    cases xs with
    | nil => simp [joinNL]
    | cons y ys =>
      have h1 : joinNL ((x :: y :: ys) ++ [l]) = x ++ '\n' :: joinNL ((y :: ys) ++ [l]) := rfl
      rw [h1, ih l (by simp)]
      show x ++ '\n' :: (joinNL (y :: ys) ++ '\n' :: l) =
        (x ++ '\n' :: joinNL (y :: ys)) ++ '\n' :: l
      simp [List.append_assoc]

/-- Round trip of the plain pluralization rule through the MDF
singularization rule, for words that do not end in `s`, `se`, or `ie`. -/
theorem roundtrip_of_not_s_se_ie (w : Str)
    (hs : endsWithL w (chars "s") = false)
    (hse : endsWithL w (chars "se") = false)
    (hie : endsWithL w (chars "ie") = false) :
    singularize (pluralizeWord w) = w := by
  by_cases hy : endsWithL w (chars "y") = true
  · have hpl : pluralizeWord w = dropRightL w 1 ++ chars "ies" := by
      simp [pluralizeWord, hy]
    unfold endsWithL at hy
    have hyrev : (chars "y").reverse = ['y'] := by decide
    rw [hyrev] at hy
    obtain ⟨t, ht⟩ : ∃ t, w.reverse = 'y' :: t := by
      cases hw : w.reverse with
      | nil => rw [hw] at hy; simp [List.isPrefixOf] at hy
      | cons c cs =>
        rw [hw] at hy
        simp only [List.isPrefixOf, Bool.and_eq_true, beq_iff_eq] at hy
        exact ⟨cs, by rw [hy.1]⟩
    have hdrop : dropRightL w 1 = t.reverse := by
      unfold dropRightL
      rw [ht]
      rfl
    have h3 : (chars "ies").reverse = ['s', 'e', 'i'] := by decide
    have harev : (dropRightL w 1 ++ chars "ies").reverse = 's' :: 'e' :: 'i' :: t := by
      rw [List.reverse_append, hdrop, List.reverse_reverse, h3]
      rfl
    rw [hpl]
    have hies : endsWithL (dropRightL w 1 ++ chars "ies") (chars "ies") = true := by
      unfold endsWithL
      rw [harev, h3]
      simp [List.isPrefixOf]
    have hsing : singularize (dropRightL w 1 ++ chars "ies") =
        dropRightL (dropRightL w 1 ++ chars "ies") 3 ++ chars "y" := by
      simp [singularize, hies]
    have hdrop3 : dropRightL (dropRightL w 1 ++ chars "ies") 3 = t.reverse := by
      have hd : dropRightL (dropRightL w 1 ++ chars "ies") 3 =
          ((dropRightL w 1 ++ chars "ies").reverse.drop 3).reverse := rfl
      rw [hd, harev]
      rfl
    rw [hsing, hdrop3]
    show t.reverse ++ ['y'] = w
    conv_rhs => rw [(List.reverse_reverse w).symm, ht]
    simp
  · have hy' : endsWithL w (chars "y") = false := by
      cases h : endsWithL w (chars "y") with
      | false => rfl
      | true => exact absurd h hy
    have hpl : pluralizeWord w = w ++ chars "s" := by
      simp [pluralizeWord, hy', hs]
    have harev : (w ++ chars "s").reverse = 's' :: w.reverse := by
      rw [List.reverse_append]
      rfl
    have hies : endsWithL (w ++ chars "s") (chars "ies") = false := by
      unfold endsWithL
      rw [harev]
      have : (chars "ies").reverse = 's' :: 'e' :: 'i' :: [] := by decide
      rw [this]
      simp only [List.isPrefixOf, Bool.and_eq_true, beq_self_eq_true, true_and]
      unfold endsWithL at hie
      have hrev2 : (chars "ie").reverse = 'e' :: 'i' :: [] := by decide
      rw [hrev2] at hie
      simpa using hie
    have hses : endsWithL (w ++ chars "s") (chars "ses") = false := by
      unfold endsWithL
      rw [harev]
      have : (chars "ses").reverse = 's' :: 'e' :: 's' :: [] := by decide
      rw [this]
      simp only [List.isPrefixOf, Bool.and_eq_true, beq_self_eq_true, true_and]
      unfold endsWithL at hse
      have hrev2 : (chars "se").reverse = 'e' :: 's' :: [] := by decide
      rw [hrev2] at hse
      simpa using hse
    have hends : endsWithL (w ++ chars "s") (chars "s") = true := by
      unfold endsWithL
      rw [harev]
      have hrev2 : (chars "s").reverse = ['s'] := by decide
      rw [hrev2]
      simp [List.isPrefixOf]
    have hss : endsWithL (w ++ chars "s") (chars "ss") = false := by
      unfold endsWithL
      rw [harev]
      have : (chars "ss").reverse = 's' :: 's' :: [] := by decide
      rw [this]
      simp only [List.isPrefixOf, Bool.and_eq_true, beq_self_eq_true, true_and]
      unfold endsWithL at hs
      have hrev2 : (chars "s").reverse = 's' :: [] := by decide
      rw [hrev2] at hs
      simpa using hs
    rw [hpl]
    have hsing : singularize (w ++ chars "s") = dropRightL (w ++ chars "s") 1 := by
      simp [singularize, hies, hses, hends, hss]
    rw [hsing]
    unfold dropRightL
    rw [harev]
    simp

/-- The MDF document always ends with exactly one newline: a newline is the
last character, and the character before it (when present) survived
`rstrip`, hence is not whitespace. -/
theorem generate_schema_trailing_newline (m : MdfModel) :
    endsWithL (generate_schema m) (chars "\n") = true ∧
      endsWithL (generate_schema m) (chars "\n\n") = false := by
  unfold generate_schema
  constructor
  · exact endsWithL_append_self _ _
  · unfold endsWithL rstripL
    rw [List.reverse_append, List.reverse_reverse]
    have h1 : (chars "\n").reverse = ['\n'] := by decide
    have h2 : (chars "\n\n").reverse = ['\n', '\n'] := by decide
    rw [h1, h2]
    show (['\n', '\n'].isPrefixOf
      ('\n' :: List.dropWhile Char.isWhitespace (joinNL _).reverse)) = false
    simp only [List.isPrefixOf, Bool.and_eq_true, beq_self_eq_true, true_and]
    cases hrest : List.dropWhile Char.isWhitespace (joinNL _).reverse with
    | nil => rfl
    | cons c cs =>
      have hcw : Char.isWhitespace c = false := dropWhile_head_false _ _ c cs hrest
      have hcne : ('\n' == c) = false := by
        cases hcc : ('\n' == c) with
        | false => rfl
        | true =>
          have : c = '\n' := (beq_iff_eq.mp hcc).symm
          rw [this] at hcw
          simp at hcw
      simp [List.isPrefixOf, hcne]

/-- The body assembled by `process_ccdi_model` always ends in a closing
brace followed by a newline: the final line of the last block (or of the
boilerplate, when there is no node) is empty and the line before it is the
closing brace. -/
theorem process_ccdi_model_ends (nodes : List (Str × List Str))
    (rels : List PlainRelDef) (propDefs : List (Str × Option Str)) :
    ∃ u, process_ccdi_model nodes rels propDefs = u ++ chars "\x7d\n" := by
  rcases List.eq_nil_or_concat nodes with hn | ⟨ns, nd, hn⟩
  · subst hn
    exact ⟨chars "#graphql\n\n# Type for field count results\ntype FieldCount \x7b\n  field: String!\n  count: Int!\n", rfl⟩
  · subst hn
    have hg : ∀ A : List Str, A ≠ [] →
        joinNL (A ++ [chars "\x7d", chars ""]) = joinNL A ++ ['\n', '\x7d', '\n'] := by
      intro A hA
      have h1 : A ++ [chars "\x7d", chars ""] = (A ++ [chars "\x7d"]) ++ [chars ""] := by simp
      rw [h1, joinNL_append_single _ _ (by simp), joinNL_append_single _ _ hA]
      have h2 : chars "\x7d" = ['\x7d'] := rfl
      have h3 : chars "" = [] := rfl
      rw [h2, h3, List.append_assoc]
      rfl
    unfold process_ccdi_model
    rw [List.concat_eq_append, List.map_append, List.map_singleton, ← List.append_assoc]
    have hne : plainBoilerplate ++ List.map
        (fun nd => generate_node_type nd.1 nd.2 propDefs (relationshipMapGet rels nd.1)) ns ≠ [] := by
      simp [plainBoilerplate]
    rw [joinNL_append_single _ _ hne]
    have hgnd : generate_node_type nd.1 nd.2 propDefs (relationshipMapGet rels nd.1) =
        joinNL (([chars "type " ++ nd.1 ++ chars " \x7b"] ++
          List.map (renderPropLine propDefs) nd.2 ++
          List.map renderRelLine (compileRelFields nd.1 (relationshipMapGet rels nd.1))) ++
          [chars "\x7d", chars ""]) := rfl
    rw [hgnd, hg _ (by simp)]
    refine ⟨joinNL (plainBoilerplate ++ List.map
        (fun nd => generate_node_type nd.1 nd.2 propDefs (relationshipMapGet rels nd.1)) ns) ++
      '\n' :: (joinNL ([chars "type " ++ nd.1 ++ chars " \x7b"] ++
          List.map (renderPropLine propDefs) nd.2 ++
          List.map renderRelLine (compileRelFields nd.1 (relationshipMapGet rels nd.1))) ++
        ['\n']), ?_⟩
    have h4 : chars "\x7d\n" = ['\x7d', '\n'] := rfl
    rw [h4]
    simp [List.append_assoc]

/-- The printed plain-variant document always ends with a closing brace and
two newlines. -/
theorem plainOutput_ends (nodes : List (Str × List Str))
    (rels : List PlainRelDef) (propDefs : List (Str × Option Str)) :
    endsWithL (plainOutput nodes rels propDefs) (chars "\x7d\n\n") = true := by
  obtain ⟨u, hu⟩ := process_ccdi_model_ends nodes rels propDefs
  unfold plainOutput
  rw [hu, List.append_assoc]
  have : chars "\x7d\n" ++ chars "\n" = chars "\x7d\n\n" := by decide
  rw [this]
  exact endsWithL_append_self _ _

/-- Sorting the property pairs yields a `propLe`-sorted list. -/
theorem sortedProps_sorted (ps : List (Str × MdfProp)) :
    List.Pairwise propLe (sortedProps ps) :=
  List.sorted_insertionSort propLe ps

/-- With distinct property names, the sorted property list depends only on
the multiset of pairs, not on their input order. -/
theorem sortedProps_perm_eq (ps ps' : List (Str × MdfProp)) (hperm : ps.Perm ps')
    (hnd : (ps.map Prod.fst).Nodup) : sortedProps ps = sortedProps ps' := by
  have hs1 : List.Sorted propLe (sortedProps ps) := List.sorted_insertionSort propLe ps
  have hs2 : List.Sorted propLe (sortedProps ps') := List.sorted_insertionSort propLe ps'
  have hp1 : (sortedProps ps).Perm ps := List.perm_insertionSort propLe ps
  have hp2 : (sortedProps ps').Perm ps' := List.perm_insertionSort propLe ps'
  have hperm2 : (sortedProps ps).Perm (sortedProps ps') :=
    hp1.trans (hperm.trans hp2.symm)
  have hnd1 : ((sortedProps ps).map Prod.fst).Nodup :=
    ((hp1.map Prod.fst).nodup_iff).mpr hnd
  have hnd2 : ((sortedProps ps').map Prod.fst).Nodup :=
    ((hp2.map Prod.fst).nodup_iff).mpr (((hperm.map Prod.fst).nodup_iff).mp hnd)
  have hne1 : List.Pairwise (fun a b : Str × MdfProp => a.1 ≠ b.1) (sortedProps ps) :=
    List.pairwise_map.mp hnd1
  have hne2 : List.Pairwise (fun a b : Str × MdfProp => a.1 ≠ b.1) (sortedProps ps') :=
    List.pairwise_map.mp hnd2
  have hlt1 : List.Pairwise propLt (sortedProps ps) := (hs1.and hne1).imp (fun hc => hc)
  have hlt2 : List.Pairwise propLt (sortedProps ps') := (hs2.and hne2).imp (fun hc => hc)
  exact List.eq_of_perm_of_sorted hperm2 hlt1 hlt2

/-- The emitted SDL of a node only looks at its properties through
`sortedProps`, so any reordering with distinct names gives identical
output. -/
theorem generate_type_sdl_congr (m : MdfModel) (hd : Str)
    (ps ps' : List (Str × MdfProp)) (hsort : sortedProps ps = sortedProps ps') :
    generate_type_sdl m ⟨hd, ps⟩ = generate_type_sdl m ⟨hd, ps'⟩ := by
  unfold generate_type_sdl
  dsimp only
  rw [hsort]
  have hb : build_relationship_fields m ⟨hd, ps⟩ = build_relationship_fields m ⟨hd, ps'⟩ := rfl
  rw [hb]

/-! Claim theorems. -/

/-- C1 counterexample: the claimed duplicate-freedom fails. With two
relationships `r1`, `r2` both from `a` to `b`, node `a` gets two `OUT`
fields that are both named `bs`: the first pass deduplicates only by the
`(label, target, direction)` key and never drops a later fact whose derived
field name collides with an earlier one. -/
theorem c1_collision_not_dropped :
    ¬ ((compileRelFields (chars "a") (relationshipMapGet c1Rels (chars "a"))).map
        CompiledField.name).Nodup := by decide

/-- C1 (amended): the drop-on-collision behaviour holds only for the `IN`
pass of the plain variant. The names of the compiled `IN` fields of an
entity type are duplicate-free and distinct from every compiled `OUT`
field's name; `OUT` facts are deduplicated only by identical
`(label, target, direction)` triples, so distinct-label `OUT` facts may
emit duplicate names. -/
theorem c1_amended_in_names_unique (nn : Str) (rels : List PlainFact) :
    (((compileRelFields nn rels).filter (fun f => decide (f.dir = Direction.IN))).map
        CompiledField.name).Nodup ∧
    ∀ f ∈ compileRelFields nn rels, f.dir = Direction.IN →
      ∀ g ∈ compileRelFields nn rels, g.dir = Direction.OUT → f.name ≠ g.name := by
  constructor
  · have houts := outPass_spec nn rels [] []
    have hins := inPass_spec nn rels (outPass nn rels [] []).1 (outPass nn rels [] []).2.1
    have hc : compileRelFields nn rels =
        (outPass nn rels [] []).2.2 ++
          (inPass nn rels (outPass nn rels [] []).1 (outPass nn rels [] []).2.1).2.2 := rfl
    rw [hc, List.filter_append,
      List.filter_eq_nil_iff.mpr (fun f hf => by simp [(houts.1 f hf).1]),
      List.filter_eq_self.mpr (fun f hf => by simp [(hins.1 f hf).1])]
    simpa using hins.2.2
  · exact compile_out_wins nn rels

/-- C1 witness: the amended statement evaluated on the `abRels` demo, where
node `b` has the `IN` field `as` and the `OUT` field `cs`. -/
theorem c1_amended_witness :
    (((compileRelFields (chars "b") (relationshipMapGet abRels (chars "b"))).filter
        (fun f => decide (f.dir = Direction.IN))).map CompiledField.name).Nodup ∧
    CompiledField.name ⟨chars "as", chars "a", chars "r1", Direction.IN⟩ ≠
      CompiledField.name ⟨chars "cs", chars "c", chars "r2", Direction.OUT⟩ := by
  refine ⟨(c1_amended_in_names_unique (chars "b") (relationshipMapGet abRels (chars "b"))).1, ?_⟩
  exact (c1_amended_in_names_unique (chars "b") (relationshipMapGet abRels (chars "b"))).2
    ⟨chars "as", chars "a", chars "r1", Direction.IN⟩ (by decide) rfl
    ⟨chars "cs", chars "c", chars "r2", Direction.OUT⟩ (by decide) rfl

/-- C2 counterexample: for the fact (label `of_sample`, source `diagnosis`,
destination `sample`), the `sample` type gets only the `IN` field
`diagnosis` — not an `OUT` field named `samples`; the `OUT` field `samples`
lands on the `diagnosis` (source) type; and the MDF label-recovery
heuristic returns `SAMPLE`, not `OF_SAMPLE`, for the derived field name. -/
theorem c2_direction_swapped :
    compileRelFields (chars "sample") (relationshipMapGet demoRels (chars "sample")) =
      [⟨chars "diagnosis", chars "diagnosis", chars "of_sample", Direction.IN⟩] ∧
    compileRelFields (chars "diagnosis") (relationshipMapGet demoRels (chars "diagnosis")) =
      [⟨chars "samples", chars "sample", chars "of_sample", Direction.OUT⟩] ∧
    relationship_type_name
      ⟨chars "CCDI", [], [⟨chars "of_sample", chars "diagnosis", chars "sample"⟩]⟩
      (chars "sample_of_sample") = chars "SAMPLE" :=
  ⟨by decide, by decide, by decide⟩

/-- C2 (amended): for the fact (label `of_sample`, source `diagnosis`,
destination `sample`), the source type `diagnosis` gains the `OUT` field
`samples` (pluralized destination) whose emitted traversal directive
carries the label `of_sample` verbatim, and the destination type `sample`
gains the `IN` field `diagnosis` (the source identifier, unchanged since it
ends in `s`). -/
theorem c2_amended_source_gets_out :
    generate_node_type (chars "diagnosis") [] []
        (relationshipMapGet demoRels (chars "diagnosis")) =
      chars "type diagnosis \x7b\n  samples: [sample!]! @relationship(type: \"of_sample\", direction: OUT)\n\x7d\n" ∧
    generate_node_type (chars "sample") [] []
        (relationshipMapGet demoRels (chars "sample")) =
      chars "type sample \x7b\n  diagnosis: [diagnosis!]! @relationship(type: \"of_sample\", direction: IN)\n\x7d\n" :=
  ⟨by decide, by decide⟩

/-- C3 counterexample: for the `of_sample` demo fact, the `IN` field on
`sample` is named `diagnosis` — derived from the adjacent source type —
while the claim's rule (pluralized own identifier) would give `samples`. -/
theorem c3_in_name_from_source :
    ((compileRelFields (chars "sample") (relationshipMapGet demoRels (chars "sample"))).map
      CompiledField.name) = [chars "diagnosis"] ∧
    pluralizeWord (chars "sample") = chars "samples" ∧
    chars "diagnosis" ≠ chars "samples" :=
  ⟨by decide, by decide, by decide⟩

/-- C3 (amended): in the plain variant, every compiled `IN` field's
candidate name is derived from the adjacent source type's identifier (the
field's target), pluralized by the same rule as `OUT` candidates, and the
field originates from an endpoint pair whose destination is the current
entity type. -/
theorem c3_amended_in_names (nn : Str) (rds : List PlainRelDef) :
    ∀ f ∈ compileRelFields nn (relationshipMapGet rds nn), f.dir = Direction.IN →
      f.name = fieldNameFor nn f.target ∧
      ∃ rd ∈ rds, ∃ es, rd.ends = some es ∧ ∃ e ∈ es, e.dst = nn ∧
        f.relType = rd.name ∧ f.target = e.src := by
  intro f hf hfdir
  have houts := outPass_spec nn (relationshipMapGet rds nn) [] []
  have hins := inPass_spec nn (relationshipMapGet rds nn)
    (outPass nn (relationshipMapGet rds nn) [] []).1
    (outPass nn (relationshipMapGet rds nn) [] []).2.1
  rcases List.mem_append.mp hf with hfo | hfi
  · have := (houts.1 f hfo).1
    rw [this] at hfdir
    exact absurd hfdir (by simp)
  · obtain ⟨_, _, _, r, hrmem, hrdir, hfeq⟩ := hins.1 f hfi
    obtain ⟨rd, hrd, es, hes, e, he, hdst, hrel, htgt⟩ :=
      relationshipMapGet_in_fact rds nn r hrmem hrdir
    subst hfeq
    exact ⟨rfl, rd, hrd, es, hes, e, he, hdst, hrel, htgt⟩

/-- C3 witness: the amended statement evaluated on the `of_sample` demo
fact for the `sample` entity type. -/
theorem c3_amended_witness :
    CompiledField.name ⟨chars "diagnosis", chars "diagnosis", chars "of_sample", Direction.IN⟩ =
      fieldNameFor (chars "sample")
        (CompiledField.target
          ⟨chars "diagnosis", chars "diagnosis", chars "of_sample", Direction.IN⟩) ∧
    ∃ rd ∈ demoRels, ∃ es, rd.ends = some es ∧ ∃ e ∈ es, e.dst = chars "sample" ∧
      CompiledField.relType
          ⟨chars "diagnosis", chars "diagnosis", chars "of_sample", Direction.IN⟩ = rd.name ∧
      CompiledField.target
          ⟨chars "diagnosis", chars "diagnosis", chars "of_sample", Direction.IN⟩ = e.src :=
  c3_amended_in_names (chars "sample") demoRels
    ⟨chars "diagnosis", chars "diagnosis", chars "of_sample", Direction.IN⟩ (by decide) rfl

/-- C4: in the plain variant's drop-on-collision compiler, all accepted
`OUT` fields precede all accepted `IN` fields in the emitted order
(filtering by direction and re-concatenating is the identity), and an `IN`
fact whose candidate name collides with any accepted field name is dropped,
so no `IN` field ever shares a name with an `OUT` field: `OUT`
relationships always win naming conflicts. -/
theorem c4_out_precedence (nn : Str) (rels : List PlainFact) :
    ((compileRelFields nn rels).filter (fun f => decide (f.dir = Direction.OUT)) ++
      (compileRelFields nn rels).filter (fun f => decide (f.dir = Direction.IN)) =
      compileRelFields nn rels) ∧
    ∀ f ∈ compileRelFields nn rels, f.dir = Direction.IN →
      ∀ g ∈ compileRelFields nn rels, g.dir = Direction.OUT → f.name ≠ g.name :=
  ⟨compile_dir_split nn rels, compile_out_wins nn rels⟩

/-- C4 witness: the precedence statement evaluated on the `abRels` demo. -/
theorem c4_witness :
    ((compileRelFields (chars "b") (relationshipMapGet abRels (chars "b"))).filter
        (fun f => decide (f.dir = Direction.OUT)) ++
      (compileRelFields (chars "b") (relationshipMapGet abRels (chars "b"))).filter
        (fun f => decide (f.dir = Direction.IN)) =
      compileRelFields (chars "b") (relationshipMapGet abRels (chars "b"))) ∧
    CompiledField.name ⟨chars "as", chars "a", chars "r1", Direction.IN⟩ ≠
      CompiledField.name ⟨chars "cs", chars "c", chars "r2", Direction.OUT⟩ := by
  refine ⟨(c4_out_precedence (chars "b") (relationshipMapGet abRels (chars "b"))).1, ?_⟩
  exact (c4_out_precedence (chars "b") (relationshipMapGet abRels (chars "b"))).2
    ⟨chars "as", chars "a", chars "r1", Direction.IN⟩ (by decide) rfl
    ⟨chars "cs", chars "c", chars "r2", Direction.OUT⟩ (by decide) rfl

/-- C5: the candidate-name pluralization of the plain variant (identical in
the memgraph variant): a word already ending in `s` is kept unchanged, a
trailing `y` becomes `ies`, otherwise `s` is appended; and a
self-relationship target (equal to the current entity type) is never
auto-pluralized. -/
theorem c5_pluralization_rule (node w : Str) :
    (endsWithL w (chars "s") = true → fieldNameFor node w = w) ∧
    (w ≠ node → endsWithL w (chars "s") = false → endsWithL w (chars "y") = true →
      fieldNameFor node w = dropRightL w 1 ++ chars "ies") ∧
    (w ≠ node → endsWithL w (chars "s") = false → endsWithL w (chars "y") = false →
      fieldNameFor node w = w ++ chars "s") ∧
    fieldNameFor node node = node := by
  refine ⟨?_, ?_, ?_, ?_⟩
  · intro hws
    simp [fieldNameFor, hws]
  · intro hne hws hwy
    simp [fieldNameFor, pluralizeWord, hws, hne, hwy]
  · intro hne hws hwy
    simp [fieldNameFor, pluralizeWord, hws, hne, hwy]
  · simp [fieldNameFor]

/-- C5 witness: the pluralization rule evaluated on `sets` (ends in `s`),
`study` (trailing `y`), `sample` (default case), and the self-relationship
`study`/`study`. -/
theorem c5_witness :
    fieldNameFor (chars "a") (chars "sets") = chars "sets" ∧
    fieldNameFor (chars "a") (chars "study") = chars "studies" ∧
    fieldNameFor (chars "a") (chars "sample") = chars "samples" ∧
    fieldNameFor (chars "study") (chars "study") = chars "study" := by
  refine ⟨(c5_pluralization_rule (chars "a") (chars "sets")).1 (by decide), ?_, ?_,
    (c5_pluralization_rule (chars "study") (chars "study")).2.2.2⟩
  · have h := (c5_pluralization_rule (chars "a") (chars "study")).2.1
      (by decide) (by decide) (by decide)
    rw [h]
    decide
  · have h := (c5_pluralization_rule (chars "a") (chars "sample")).2.2.1
      (by decide) (by decide) (by decide)
    rw [h]
    decide

/-- C6 counterexample: the boolean-suggestive fragments are matched as
substrings anywhere, not only in leading position: `analysis_type` contains
`is_` in the middle, so the code returns `Boolean`, while the claim's
leading-position rule gives `String`. -/
theorem c6_is_fragment_matches_inside :
    determine_graphql_type (chars "analysis_type") none = chars "Boolean" ∧
    claimNameScalar (chars "analysis_type") = chars "String" ∧
    chars "Boolean" ≠ chars "String" :=
  ⟨by decide, by decide, by decide⟩

/-- C6 (amended): with no domain metadata, the scalar is chosen by three
ordered classes with the first match winning — `_id` suffix or exact `id`
gives the string scalar; otherwise a numeric-suggestive fragment occurring
anywhere in the lowercased name gives the integer scalar; otherwise a
boolean-suggestive fragment (`indicator`, `_flag`, `is_`, `has_`) occurring
anywhere — not only leading — gives the boolean scalar; otherwise the
string scalar. -/
theorem c6_amended_classes (p : Str) :
    (endsWithL p (chars "_id") = true ∨ p = chars "id" →
      determine_graphql_type p none = chars "String") ∧
    (¬(endsWithL p (chars "_id") = true ∨ p = chars "id") →
      numeric_patterns.any (fun q => isSubstring q (toLowerL p)) = true →
      determine_graphql_type p none = chars "Int") ∧
    (¬(endsWithL p (chars "_id") = true ∨ p = chars "id") →
      numeric_patterns.any (fun q => isSubstring q (toLowerL p)) = false →
      boolean_patterns.any (fun q => isSubstring q (toLowerL p)) = true →
      determine_graphql_type p none = chars "Boolean") ∧
    (¬(endsWithL p (chars "_id") = true ∨ p = chars "id") →
      numeric_patterns.any (fun q => isSubstring q (toLowerL p)) = false →
      boolean_patterns.any (fun q => isSubstring q (toLowerL p)) = false →
      determine_graphql_type p none = chars "String") := by
  refine ⟨?_, ?_, ?_, ?_⟩
  · intro hid
    simp [determine_graphql_type, hid]
  · intro hid hnum
    simp [determine_graphql_type, hid, hnum]
  · intro hid hnum hbool
    simp [determine_graphql_type, hid, hnum, hbool]
  · intro hid hnum hbool
    simp [determine_graphql_type, hid, hnum, hbool]

/-- C6 witness: one attribute name per class — `sample_id`,
`number_of_reads`, `analysis_type` (boolean via an inner `is_`), and
`name`. -/
theorem c6_amended_witness :
    determine_graphql_type (chars "sample_id") none = chars "String" ∧
    determine_graphql_type (chars "number_of_reads") none = chars "Int" ∧
    determine_graphql_type (chars "analysis_type") none = chars "Boolean" ∧
    determine_graphql_type (chars "name") none = chars "String" :=
  ⟨(c6_amended_classes (chars "sample_id")).1 (by decide),
   (c6_amended_classes (chars "number_of_reads")).2.1 (by decide) (by decide),
   (c6_amended_classes (chars "analysis_type")).2.2.1 (by decide) (by decide) (by decide),
   (c6_amended_classes (chars "name")).2.2.2 (by decide) (by decide) (by decide)⟩

/-- C7 counterexample: the ordinary noun `case` does not end in `s`, yet
`singularize (pluralizeWord "case")` is `cas`, not `case`: pluralization
appends `s` giving `cases`, and the `ses` rule of singularization then
strips two characters. -/
theorem c7_case_roundtrip_fails :
    endsWithL (chars "case") (chars "s") = false ∧
    pluralizeWord (chars "case") = chars "cases" ∧
    singularize (chars "cases") = chars "cas" ∧
    chars "cas" ≠ chars "case" :=
  ⟨by decide, by decide, by decide, by decide⟩

/-- C7 (amended): `singularize (pluralizeWord w) = w` holds for every word
`w` that does not end in `s`, does not end in `se` (which would trigger the
`ses` rule, e.g. `case` → `cases` → `cas`), and does not end in `ie` (which
would trigger the `ies` rule, e.g. `movie` → `movies` → `movy`). Outside
this set the round trip can fail (as in the two examples above), though it
does not always (a word ending in `ss` is returned unchanged by both
functions). -/
theorem c7_amended_roundtrip (w : Str) (hs : endsWithL w (chars "s") = false)
    (hse : endsWithL w (chars "se") = false) (hie : endsWithL w (chars "ie") = false) :
    singularize (pluralizeWord w) = w :=
  roundtrip_of_not_s_se_ie w hs hse hie

/-- C7 witness: the specification's own examples `sample` and `study`
round-trip. -/
theorem c7_amended_witness :
    singularize (pluralizeWord (chars "sample")) = chars "sample" ∧
    singularize (pluralizeWord (chars "study")) = chars "study" :=
  ⟨c7_amended_roundtrip (chars "sample") (by decide) (by decide) (by decide),
   c7_amended_roundtrip (chars "study") (by decide) (by decide) (by decide)⟩

/-- C8 counterexample: with nodes given in the order `b`, `a`, the plain
variant's printed document keeps the blocks in input order (`type b` before
`type a`, although `a` sorts before `b`) and ends with two newlines, not
one. -/
theorem c8_plain_unsorted_two_newlines :
    plainOutput [(chars "b", []), (chars "a", [])] [] [] =
      chars "#graphql\n\n# Type for field count results\ntype FieldCount \x7b\n  field: String!\n  count: Int!\n\x7d\n\ntype b \x7b\n\x7d\n\ntype a \x7b\n\x7d\n\n" ∧
    endsWithL (plainOutput [(chars "b", []), (chars "a", [])] [] []) (chars "\n\n") = true ∧
    strLe (chars "a") (chars "b") = true :=
  ⟨by decide, by decide, by decide⟩

/-- C8 (amended): only the metadata-driven variant assembles the claimed
document shape — its output ends with exactly one trailing newline (a final
newline not preceded by another) and its type blocks follow the node list
sorted lexicographically by handle; the plain variant instead emits blocks
in source order and its printed document always ends with a closing brace
followed by two newlines. -/
theorem c8_amended_assembly :
    (∀ m : MdfModel, endsWithL (generate_schema m) (chars "\n") = true ∧
      endsWithL (generate_schema m) (chars "\n\n") = false ∧
      List.Pairwise nodeLe (sortedNodes m)) ∧
    (∀ (nodes : List (Str × List Str)) (rels : List PlainRelDef)
        (propDefs : List (Str × Option Str)),
      endsWithL (plainOutput nodes rels propDefs) (chars "\x7d\n\n") = true) := by
  constructor
  · intro m
    obtain ⟨h1, h2⟩ := generate_schema_trailing_newline m
    exact ⟨h1, h2, List.sorted_insertionSort nodeLe m.nodes⟩
  · exact plainOutput_ends

/-- C9: in the metadata-driven variant, the attribute fields of every
emitted entity type appear sorted lexicographically by attribute name, and
(given the dict-guaranteed distinctness of attribute names) the emitted
block is the same for any input ordering of the attributes. -/
theorem c9_props_sorted (m : MdfModel) (hd : Str) (ps ps' : List (Str × MdfProp))
    (hperm : ps.Perm ps') (hnd : (ps.map Prod.fst).Nodup) :
    List.Pairwise (fun a b => strLe a b = true) ((sortedProps ps).map Prod.fst) ∧
    generate_type_sdl m ⟨hd, ps⟩ = generate_type_sdl m ⟨hd, ps'⟩ := by
  constructor
  · exact List.pairwise_map.mpr (sortedProps_sorted ps)
  · exact generate_type_sdl_congr m hd ps ps' (sortedProps_perm_eq ps ps' hperm hnd)

/-- C9 witness: a two-attribute node given in reversed orders produces the
same sorted block. -/
theorem c9_witness :
    List.Pairwise (fun a b => strLe a b = true)
      ((sortedProps [(chars "b", ⟨some (chars "string"), none⟩),
        (chars "a", ⟨some (chars "integer"), none⟩)]).map Prod.fst) ∧
    generate_type_sdl ⟨chars "m", [], []⟩
        ⟨chars "t", [(chars "b", ⟨some (chars "string"), none⟩),
          (chars "a", ⟨some (chars "integer"), none⟩)]⟩ =
      generate_type_sdl ⟨chars "m", [], []⟩
        ⟨chars "t", [(chars "a", ⟨some (chars "integer"), none⟩),
          (chars "b", ⟨some (chars "string"), none⟩)]⟩ :=
  c9_props_sorted ⟨chars "m", [], []⟩ (chars "t")
    [(chars "b", ⟨some (chars "string"), none⟩), (chars "a", ⟨some (chars "integer"), none⟩)]
    [(chars "a", ⟨some (chars "integer"), none⟩), (chars "b", ⟨some (chars "string"), none⟩)]
    (by decide) (by decide)

/-- C10: in the plain variant, at most one relationship field line is
emitted per distinct (label, adjacent type, direction) triple, however
often the same endpoint pair occurs in the input relationship section: the
`rel_key` set admits each key once, and a triple determines its key. -/
theorem c10_dedup_by_triple (nn : Str) (rds : List PlainRelDef) (lbl tgt : Str)
    (d : Direction) :
    ((compileRelFields nn (relationshipMapGet rds nn)).filter
      (fun f => decide (f.relType = lbl ∧ f.target = tgt ∧ f.dir = d))).length ≤ 1 := by
  apply filter_length_le_one_of_key _ (lbl ++ chars "_" ++ tgt ++ chars "_" ++ dirStr d)
  · exact compile_keys_nodup nn (relationshipMapGet rds nn)
  · intro f hf
    obtain ⟨h1, h2, h3⟩ := of_decide_eq_true hf
    simp [fieldKey, h1, h2, h3]
